import Mathlib

/-!
Verification of `pytree_printer.py` (PythonDirectoryTreePrinter).

Shallow embedding of the directory-tree printer: the filesystem is modelled
as an inductive tree, the Python `pathlib.Path` queries used by the program
(`name`, `is_dir`, `is_file`, `iterdir`) are modelled as functions on that
tree, and the two renderers `print_tree` / `print_tree_md` plus the helpers
`_norm_rel` and `_should_ignore` and the CLI `main` are translated function
by function from the source.

Modelling conventions:
- `print` calls accumulate into a `List String` of output lines (each print
  is one line; names are assumed newline-free, as POSIX practice).
- An uncaught Python exception is modelled by a `Bool` flag `false` paired
  with the lines printed before the exception was raised.
- Python `str` is modelled by `String` (ASCII-faithful: `str.lower` is
  modelled by `String.toLower`, which lowercases ASCII letters).
- The upward-counting `depth`/`max_depth` guard (`if depth >= max_depth:
  return`) is modelled by recursion on the remaining fuel
  `fuel = max_depth - depth`; `print_tree` seeds `fuel = max_depth.toNat`,
  which is exactly the number of levels the source descends.
-/

/-- Model of a filesystem node as seen through `pathlib.Path`.
`unreadableDir` is a directory whose listing raises (permission denied or
removed mid-walk); `symlinkDir` is a symbolic link whose target is a
directory with the given children. -/
inductive FS where
  | file (nm : String)
  | dir (nm : String) (children : List FS)
  | unreadableDir (nm : String)
  | symlinkDir (nm : String) (children : List FS)
deriving Repr

/-- Python `Path.name`. -/
def FS.name : FS → String
  | .file n => n
  | .dir n _ => n
  | .unreadableDir n => n
  | .symlinkDir n _ => n

/-- Python `Path.is_dir()`: follows symbolic links, so a symlink whose
target is a directory reports `true`; a directory whose listing is
unreadable still stats as a directory. -/
def FS.is_dir : FS → Bool
  | .file _ => false
  | .dir _ _ => true
  | .unreadableDir _ => true
  | .symlinkDir _ _ => true

/-- Python `Path.is_file()`: follows symbolic links. -/
def FS.is_file : FS → Bool
  | .file _ => true
  | .dir _ _ => false
  | .unreadableDir _ => false
  | .symlinkDir _ _ => false

/-- Python `Path.is_symlink()` (part of the `Path` data model; the program
itself never calls it, the spec claims refer to it). -/
def FS.is_symlink : FS → Bool
  | .file _ => false
  | .dir _ _ => false
  | .unreadableDir _ => false
  | .symlinkDir _ _ => true

/-- Python `Path.iterdir()`: `some children` when listing succeeds (note
that on a symlink to a directory it follows the link and lists the target),
`none` when it raises (`PermissionError` on an unreadable directory,
`NotADirectoryError` on a file). -/
def FS.iterdir : FS → Option (List FS)
  | .file _ => none
  | .dir _ cs => some cs
  | .unreadableDir _ => none
  | .symlinkDir _ cs => some cs

mutual
/-- Every directory listing in the tree is readable (no `PermissionError`
can be raised while walking it). -/
def FS.readable : FS → Bool
  | .file _ => true
  | .dir _ cs => readableList cs
  | .unreadableDir _ => false
  | .symlinkDir _ cs => readableList cs

/-- All elements of the list are `FS.readable`. -/
def readableList : List FS → Bool
  | [] => true
  | c :: cs => FS.readable c && readableList cs
end

/-- A name is a well-formed POSIX filename component: nonempty and without
a path separator. -/
def goodName (n : String) : Bool := !(n = "") && !(n.data.contains '/')

mutual
/-- Every name in the tree is a well-formed POSIX filename component. -/
def FS.namesGood : FS → Bool
  | .file n => goodName n
  | .dir n cs => goodName n && namesGoodList cs
  | .unreadableDir n => goodName n
  | .symlinkDir n cs => goodName n && namesGoodList cs

/-- All elements of the list satisfy `FS.namesGood`. -/
def namesGoodList : List FS → Bool
  | [] => true
  | c :: cs => FS.namesGood c && namesGoodList cs
end

/-! ## `_norm_rel` (pytree_printer.py lines 100-109)

The source is `path.as_posix().lstrip("./")`.  Python `str.lstrip` with an
argument treats it as a SET of characters and strips every leading
character belonging to the set, so this removes all leading `.` and `/`
characters, not just one `./` sequence. -/

/-- Python `s.lstrip("./")`: drop every leading character that is `.` or
`/`. -/
def pyLstripDotSlash (s : String) : String :=
  ⟨s.data.dropWhile (fun c => c = '.' || c = '/')⟩

/-- Embedding of `_norm_rel`.  A relative path is represented by its list
of components (as produced by `Path.relative_to`); `as_posix` joins them
with forward slashes. -/
def _norm_rel (rel : List String) : String :=
  pyLstripDotSlash (String.intercalate "/" rel)

/-! ## `fnmatch.fnmatch` (POSIX semantics: no case folding)

CPython translates a glob pattern into a regex once (`*` to any sequence,
`?` to any one character, `[...]` to a character class where a leading `!`
negates, a leading `]` is a literal member, `a-z` is a range, and an
unterminated `[` is a literal `[`) and then requires a full match. -/

/-- One compiled glob-pattern token. -/
inductive GlobTok where
  | star
  | anyChar
  | lit (c : Char)
  | set (neg : Bool) (body : List Char)
deriving Repr, DecidableEq

/-- Scan for the closing `]` of a character class, returning the body and
the remainder, or `none` when the class is unterminated. -/
def findClose : List Char → Option (List Char × List Char)
  | [] => none
  | ']' :: t => some ([], t)
  | c :: t =>
      match findClose t with
      | none => none
      | some (body, rest) => some (c :: body, rest)

/-- Parse a character class starting just after `[`: an optional leading
`!` negates, a leading `]` (after the optional `!`) is a literal member. -/
def splitBracket : List Char → Option (Bool × List Char × List Char)
  | '!' :: ']' :: t =>
      match findClose t with
      | none => none
      | some (body, rest) => some (true, ']' :: body, rest)
  | '!' :: t =>
      match findClose t with
      | none => none
      | some (body, rest) => some (true, body, rest)
  | ']' :: t =>
      match findClose t with
      | none => none
      | some (body, rest) => some (false, ']' :: body, rest)
  | t =>
      match findClose t with
      | none => none
      | some (body, rest) => some (false, body, rest)

/-- Compile a glob pattern to tokens.  Fuel-indexed so the definition is
structurally recursive (a character class consumes several pattern
characters at once); every step consumes at least one character, so fuel
equal to the pattern length never runs out. -/
def globTranslateF : Nat → List Char → List GlobTok
  | 0, _ => []
  | _, [] => []
  | f + 1, '*' :: t => GlobTok.star :: globTranslateF f t
  | f + 1, '?' :: t => GlobTok.anyChar :: globTranslateF f t
  | f + 1, '[' :: t =>
      match splitBracket t with
      | some (neg, body, rest) => GlobTok.set neg body :: globTranslateF f rest
      | none => GlobTok.lit '[' :: globTranslateF f t
  | f + 1, c :: t => GlobTok.lit c :: globTranslateF f t

/-- Compile a glob pattern to tokens. -/
def globTranslate (p : List Char) : List GlobTok := globTranslateF p.length p

/-- Character-class membership: `a-z` ranges (a hyphen that is neither
first nor last) and literal members. -/
def setMatches : List Char → Char → Bool
  | lo :: '-' :: hi :: rest, c =>
      (decide (lo ≤ c) && decide (c ≤ hi)) || setMatches rest c
  | x :: rest, c => (x == c) || setMatches rest c
  | [], _ => false

/-- Try `f` on the given list and on every shorter suffix of it. -/
def tryAll (f : List Char → Bool) : List Char → Bool
  | [] => f []
  | c :: s => f (c :: s) || tryAll f s

/-- Match compiled glob tokens against a whole string (regex full match):
`star` matches any sequence, via trying every suffix. -/
def globMatch : List GlobTok → List Char → Bool
  | [], s => s.isEmpty
  | GlobTok.star :: ps, s => tryAll (globMatch ps) s
  | GlobTok.anyChar :: ps, s =>
      match s with
      | [] => false
      | _ :: t => globMatch ps t
  | GlobTok.lit c :: ps, s =>
      match s with
      | [] => false
      | c' :: t => (c == c') && globMatch ps t
  | GlobTok.set neg body :: ps, s =>
      match s with
      | [] => false
      | c :: t => (neg != setMatches body c) && globMatch ps t

/-- Embedding of `fnmatch.fnmatch(name, pat)` with POSIX case semantics
(`os.path.normcase` is the identity on Linux). -/
def fnmatch (s pat : String) : Bool := globMatch (globTranslate pat.data) s.data

/-! ## Default ignore configuration (pytree_printer.py lines 62-78) -/

/-- Embedding of `DEFAULT_IGNORE_NAMES` (a Python set, modelled as a list
used only through membership). -/
def DEFAULT_IGNORE_NAMES : List String :=
  [".git", "__pycache__", ".mypy_cache", ".pytest_cache", ".idea", ".venv",
   ".gitignore"]

/-- Embedding of `DEFAULT_IGNORE_GLOBS` (a tuple; order preserved). -/
def DEFAULT_IGNORE_GLOBS : List String :=
  ["*.pyc", "*.pyo", "*.pyd", ".DS_Store", ".gitignore"]

/-- The ignore configuration actually consulted during one render call.
Relative paths are represented by their component lists. -/
structure Config where
  ignore_names : List String
  ignore_globs : List String
  ignore_paths : List (List String)
  include_files : Bool
deriving Repr, DecidableEq

/-- Caller-supplied overrides, mirroring the keyword parameters of
`print_tree` / `print_tree_md` and their defaults (`ignore_names=None`,
`ignore_globs=()`, `ignore_paths=()`, `include_files=True`). -/
structure Overrides where
  ignore_names : Option (List String)
  ignore_globs : List String
  ignore_paths : List (List String)
  include_files : Bool
deriving Repr, DecidableEq

/-- The parameter defaults of `print_tree` / `print_tree_md`. -/
def defaultOverrides : Overrides := ⟨none, [], [], true⟩

/-- Embedding of the three configuration-merging lines shared verbatim by
`print_tree` (lines 263-265) and `print_tree_md` (lines 185-187):
`ignore_names = set(DEFAULT_IGNORE_NAMES if ignore_names is None else
ignore_names)`, `ignore_globs = tuple(DEFAULT_IGNORE_GLOBS) +
tuple(ignore_globs)`, `ignore_paths_set = set of the given paths`. -/
def buildConfig (o : Overrides) : Config :=
  { ignore_names :=
      match o.ignore_names with
      | none => DEFAULT_IGNORE_NAMES
      | some s => s
  , ignore_globs := DEFAULT_IGNORE_GLOBS ++ o.ignore_globs
  , ignore_paths := o.ignore_paths
  , include_files := o.include_files }

/-- Embedding of `_should_ignore` (lines 112-158).  `rel` is the path of
the candidate relative to the walk root, as a component list; in the walker
every candidate is a strict descendant of the root, so `path.relative_to
(root)` always succeeds and the `except ValueError` branch is dead. -/
def _should_ignore (cfg : Config) (rel : List String) (p : FS) : Bool :=
  let nm := p.name
  if nm ∈ cfg.ignore_names then true
  else if rel ∈ cfg.ignore_paths then true
  else cfg.ignore_globs.any (fun pat =>
    fnmatch nm pat || fnmatch (_norm_rel rel) pat)

/-! ## The sort used at each level (lines 209 and 287)

`entries.sort(key=lambda p: (p.is_file(), p.name.lower()))`: Python's
stable sort with the lexicographic order on the key pair, where
`False < True` (directories first) and strings compare by code point.
A stable sort against a total preorder is uniquely determined, so
insertion sort produces exactly the list Python's Timsort produces. -/

/-- Model of Python `str.lower()` (ASCII: lowercases the ASCII letters of
each character). -/
def pyLower (s : String) : String := ⟨s.data.map Char.toLower⟩

/-- Python string comparison: lexicographic by code point. -/
def charListLe : List Char → List Char → Bool
  | [], _ => true
  | _ :: _, [] => false
  | a :: as, b :: bs =>
      if a < b then true
      else if b < a then false
      else charListLe as bs

/-- Embedding of the sort key `(p.is_file(), p.name.lower())`. -/
def sortKey (p : FS) : Bool × String := (p.is_file, pyLower p.name)

/-- Python tuple comparison on the sort key: `False < True` on the first
component, then string comparison by code point. -/
def keyLe (a b : Bool × String) : Prop :=
  (a.1 = false ∧ b.1 = true) ∨ (a.1 = b.1 ∧ charListLe a.2.data b.2.data = true)

instance : DecidableRel keyLe := fun a b => by
  unfold keyLe; infer_instance

/-- The sort relation on entries induced by `sortKey`. -/
def entryLe (p q : FS) : Prop := keyLe (sortKey p) (sortKey q)

instance : DecidableRel entryLe := fun p q => by
  unfold entryLe; infer_instance

theorem charListLe_total (a : List Char) :
    ∀ b, charListLe a b = true ∨ charListLe b a = true := by
  induction a with
  | nil => intro b; exact Or.inl rfl
  | cons x as ih =>
    intro b
    cases b with
    | nil => exact Or.inr rfl
    | cons y bs =>
      rcases lt_trichotomy x y with h | h | h
      · left; simp [charListLe, h]
      · subst h
        rcases ih bs with h' | h'
        · left; simp [charListLe, h']
        · right; simp [charListLe, h']
      · right; simp [charListLe, h]

theorem charListLe_trans (a : List Char) :
    ∀ b c, charListLe a b = true → charListLe b c = true →
      charListLe a c = true := by
  induction a with
  | nil => intro b c _ _; rfl
  | cons x as ih =>
    intro b c hab hbc
    cases b with
    | nil => simp [charListLe] at hab
    | cons y bs =>
      cases c with
      | nil => simp [charListLe] at hbc
      | cons z cs =>
        rcases lt_trichotomy x y with h1 | h1 | h1
        · rcases lt_trichotomy y z with h2 | h2 | h2
          · simp [charListLe, lt_trans h1 h2]
          · subst h2; simp [charListLe, h1]
          · simp [charListLe, asymm h2, h2] at hbc
        · subst h1
          simp [charListLe] at hab
          rcases lt_trichotomy x z with h2 | h2 | h2
          · simp [charListLe, h2]
          · subst h2
            simp [charListLe] at hbc ⊢
            exact ih bs cs hab hbc
          · simp [charListLe, asymm h2, h2] at hbc
        · simp [charListLe, asymm h1, h1] at hab

instance : IsTotal FS entryLe := by
  constructor
  intro p q
  unfold entryLe keyLe
  rcases hp : (sortKey p).1 <;> rcases hq : (sortKey q).1
  · rcases charListLe_total (sortKey p).2.data (sortKey q).2.data with h | h
    · exact Or.inl (Or.inr ⟨rfl, h⟩)
    · exact Or.inr (Or.inr ⟨rfl, h⟩)
  · exact Or.inl (Or.inl ⟨rfl, rfl⟩)
  · exact Or.inr (Or.inl ⟨rfl, rfl⟩)
  · rcases charListLe_total (sortKey p).2.data (sortKey q).2.data with h | h
    · exact Or.inl (Or.inr ⟨rfl, h⟩)
    · exact Or.inr (Or.inr ⟨rfl, h⟩)

instance : IsTrans FS entryLe := by
  constructor
  intro p q r hpq hqr
  unfold entryLe keyLe at hpq hqr ⊢
  rcases hpq with ⟨h1, h2⟩ | ⟨h1, h2⟩ <;> rcases hqr with ⟨h3, h4⟩ | ⟨h3, h4⟩
  · rw [h2] at h3; exact absurd h3 (by simp)
  · exact Or.inl ⟨h1, h3 ▸ h2⟩
  · exact Or.inl ⟨h1.trans h3, h4⟩
  · exact Or.inr ⟨h1.trans h3, charListLe_trans _ _ _ h2 h4⟩

/-- Embedding of `entries.sort(key=lambda p: (p.is_file(), p.name.lower()))`. -/
def sortEntries (l : List FS) : List FS := List.insertionSort entryLe l

/-! ## The plain-text walker (`print_tree`, lines 238-299)

`walk(dir_path, prefix, depth)` prints one line per visible entry and
recurses into directories.  The loop over the enumerated entries is
factored into `walkList`, parameterised by the recursive call `go` (the
closure captures the configuration, the fuel for the next level, and the
extended relative path); `is_last` (`i == len(entries) - 1` in the source)
is the emptiness of the remaining tail. -/

/-- One iteration of the `for i, p in enumerate(entries)` loop of
`print_tree.walk`.  `go p childPre` is the recursive `walk` call on a
subdirectory; a `false` flag from it is an uncaught exception, which stops
the loop (the remaining siblings are never reached). -/
def walkList (go : FS → String → List String × Bool) :
    List FS → String → List String × Bool
  | [], _ => ([], true)
  | p :: rest, pre =>
      let is_last := rest.isEmpty
      let connector := if is_last then "└── " else "├── "
      let nm := p.name ++ (if p.is_dir then "/" else "")
      let line := pre ++ connector ++ nm
      if p.is_dir then
        let childPre := pre ++ (if is_last then "    " else "│   ")
        match go p childPre with
        | (sub, false) => (line :: sub, false)
        | (sub, true) =>
            match walkList go rest pre with
            | (tl, ok) => (line :: (sub ++ tl), ok)
      else
        match walkList go rest pre with
        | (tl, ok) => (line :: tl, ok)

/-- Embedding of `print_tree.walk`.  `fuel = max_depth - depth` is the
number of levels still allowed below `node` (the source's
`if depth >= max_depth: return` is `fuel = 0`); `rel` is the path of
`node` relative to the walk root.  Returns the printed lines and `false`
when an exception escaped (unreadable listing). -/
def walk (cfg : Config) : Nat → FS → List String → String → List String × Bool
  | 0, _, _, _ => ([], true)
  | fuel + 1, node, rel, pre =>
      match node.iterdir with
      | none => ([], false)
      | some children =>
          let vis := children.filter (fun p =>
            !(_should_ignore cfg (rel ++ [p.name]) p) &&
            (cfg.include_files || !p.is_file))
          walkList (fun p childPre =>
              walk cfg fuel p (rel ++ [p.name]) childPre)
            (sortEntries vis) pre

/-- Embedding of `print_tree` (signature: root, max_depth, keyword
overrides).  Prints the root header, then walks.  The `Bool` is `false`
when the render was aborted by an uncaught exception. -/
def print_tree (root : FS) (max_depth : Int) (o : Overrides) :
    List String × Bool :=
  let cfg := buildConfig o
  match walk cfg max_depth.toNat root [] "" with
  | (lines, ok) => ((root.name ++ "/") :: lines, ok)

/-! ## The Markdown walker (`print_tree_md`, lines 161-235) -/

/-- Python `'    ' * n`. -/
def indentOf : Nat → String
  | 0 => ""
  | n + 1 => "    " ++ indentOf n

/-- Remove `p` as a leading run of `s`, returning the remainder, or `none`
when `p` does not occur at the front. -/
def dropPre : List Char → List Char → Option (List Char)
  | [], s => some s
  | _, [] => none
  | p :: ps, c :: cs => if p = c then dropPre ps cs else none

/-- Fuelled worker for `pyReplace`: replace every non-overlapping
occurrence of `old`, scanning left to right.  Fuel equal to the scanned
length suffices because every step consumes at least one character (`old`
is nonempty at both call sites). -/
def strReplaceF : Nat → List Char → List Char → List Char → List Char
  | 0, _, _, s => s
  | _, _, _, [] => []
  | f + 1, old, new, c :: rest =>
      match dropPre old (c :: rest) with
      | some rem => new ++ strReplaceF f old new rem
      | none => c :: strReplaceF f old new rest

/-- Model of Python `s.replace(old, new)` (all non-overlapping occurrences,
left to right). -/
def pyReplace (s old new : String) : String :=
  ⟨strReplaceF s.data.length old.data new.data s.data⟩

/-- One iteration of the entry loop of `print_tree_md.walk`: an opening
`<details><summary>` line (prefix translated to `&nbsp;`), the recursion
into subdirectories, then the matching `</details>` line.  An exception
inside the recursion skips the closing tag and the remaining siblings. -/
def walkMdList (go : FS → String → List String × Bool) :
    List FS → String → Nat → List String × Bool
  | [], _, _ => ([], true)
  | p :: rest, pre, depth =>
      let is_last := rest.isEmpty
      let connector := if is_last then "└── " else "├── "
      let nm := p.name ++ (if p.is_dir then "/" else "")
      let md_pre := pyReplace (pyReplace pre "│" "&nbsp;") " " "&nbsp;"
      let indent := indentOf (depth + 1)
      let openL := indent ++ "<details><summary>" ++ md_pre ++ connector ++
        nm ++ "</summary>"
      match (if p.is_dir then
               go p (pre ++ (if is_last then "    " else "│   "))
             else ([], true)) with
      | (sub, false) => (openL :: sub, false)
      | (sub, true) =>
          let closeL := indent ++ "</details>"
          match walkMdList go rest pre depth with
          | (tl, ok) => (openL :: (sub ++ (closeL :: tl)), ok)

/-- Embedding of `print_tree_md.walk`; same shape as `walk`, but the
cosmetic source indentation needs the current `depth`, which therefore
remains an explicit argument alongside the fuel. -/
def walkMd (cfg : Config) :
    Nat → FS → List String → String → Nat → List String × Bool
  | 0, _, _, _, _ => ([], true)
  | fuel + 1, node, rel, pre, depth =>
      match node.iterdir with
      | none => ([], false)
      | some children =>
          let vis := children.filter (fun p =>
            !(_should_ignore cfg (rel ++ [p.name]) p) &&
            (cfg.include_files || !p.is_file))
          walkMdList (fun p childPre =>
              walkMd cfg fuel p (rel ++ [p.name]) childPre (depth + 1))
            (sortEntries vis) pre depth

/-- Embedding of `print_tree_md`: root opening tag, walk, then - only when
the walk did not raise - the root closing tag. -/
def print_tree_md (root : FS) (max_depth : Int) (o : Overrides) :
    List String × Bool :=
  let cfg := buildConfig o
  let header := "<details><summary>" ++ root.name ++ "/</summary>"
  match walkMd cfg max_depth.toNat root [] "" 0 with
  | (lines, true) => (header :: (lines ++ ["</details>"]), true)
  | (lines, false) => (header :: lines, false)

/-! ## CLI entry point (`main`, lines 302-329) -/

/-- Python whitespace stripped by `int(str)`. -/
def pyWs (c : Char) : Bool :=
  c = ' ' || c = '\t' || c = '\n' || c = '\r' || c = '\x0b' || c = '\x0c'

/-- Strip leading and trailing whitespace. -/
def stripWs (cs : List Char) : List Char :=
  ((cs.dropWhile pyWs).reverse.dropWhile pyWs).reverse

/-- Digit-sequence value for `int()`: digits with single underscores
allowed between digits (never leading, trailing, or doubled). -/
def pyDigitsCore : Nat → List Char → Option Nat
  | acc, [] => some acc
  | acc, '_' :: c :: rest =>
      if c.isDigit then pyDigitsCore (acc * 10 + (c.toNat - 48)) rest
      else none
  | _, ['_'] => none
  | acc, c :: rest =>
      if c.isDigit then pyDigitsCore (acc * 10 + (c.toNat - 48)) rest
      else none

/-- Model of Python `int(s)` over ASCII strings: optional surrounding
whitespace, optional sign, then a digit sequence; `none` models the
`ValueError` raised on anything else. -/
def pyInt? (s : String) : Option Int :=
  let cs := stripWs s.data
  let signed : Bool × List Char :=
    match cs with
    | '-' :: t => (true, t)
    | '+' :: t => (false, t)
    | t => (false, t)
  match signed.2 with
  | [] => none
  | c :: t =>
      if c.isDigit then
        (pyDigitsCore 0 (c :: t)).map
          (fun n => if signed.1 then -(n : Int) else (n : Int))
      else none

/-- The observable result of one `python pytree_printer.py` process run:
the lines written to stdout, the process exit status (0 from `main`'s
`return 0`, 1 when an uncaught exception ended the interpreter), and the
final state of the caller's `argv` list (`argv.remove("--md")` mutates it
in place). -/
structure MainOut where
  out : List String
  exitCode : Int
  argvAfter : List String
deriving Repr, DecidableEq

/-- State of the caller's `argv` list after the `if "--md" in argv:
argv.remove("--md")` step: `list.remove(x)` deletes the first occurrence in
place, which `List.erase` models. -/
def pyArgv1 (argv : List String) : List String :=
  if "--md" ∈ argv then argv.erase "--md" else argv

/-- Embedding of `main(argv)` called with an explicit argument list (named
`pyMain` because Lean reserves `main` for executable entry points).  The
filesystem tree reached through `Path(argv[0])` (or `"."`) is passed
explicitly as `fs`.  `int(argv[1])` failing is the `ValueError` path:
nothing has been printed yet and the interpreter exits with status 1. -/
def pyMain (fs : FS) (argv : List String) : MainOut :=
  match (if (pyArgv1 argv).length > 1 then pyInt? ((pyArgv1 argv).getD 1 "")
         else some 2) with
  | none => ⟨[], 1, pyArgv1 argv⟩
  | some depth =>
      match (if "--md" ∈ argv then print_tree_md fs depth defaultOverrides
             else print_tree fs depth defaultOverrides) with
      | (lines, ok) => ⟨lines, if ok then 0 else 1, pyArgv1 argv⟩

/-! ## Derived specifications used by the claims -/

/-- Number of visible entries at depths `1 .. fuel` below `node` (depth
counted in directory levels below the walk root, the root itself being
depth 0): the visible children of each level plus, one level deeper, the
entries below each visible directory child.  This is the reference count
for the depth-bound claim. -/
def countUpTo (cfg : Config) : Nat → FS → List String → Nat
  | 0, _, _ => 0
  | fuel + 1, node, rel =>
      match node.iterdir with
      | none => 0
      | some children =>
          let vis := children.filter (fun p =>
            !(_should_ignore cfg (rel ++ [p.name]) p) &&
            (cfg.include_files || !p.is_file))
          vis.length +
            (vis.map (fun p =>
              if p.is_dir then countUpTo cfg fuel p (rel ++ [p.name])
              else 0)).sum

/-- One emitted entry of the plain-text walker, keeping the bookkeeping the
renderer consumes: the accumulated display prefix, whether the entry is the
last of its sorted sibling list, whether it is a directory, and its bare
name. -/
structure EmitEvent where
  pre : String
  isLast : Bool
  isDir : Bool
  nm : String
deriving Repr, DecidableEq

/-- The line format stated by the specification: prefix, then connector
(`"└── "` exactly when the entry is last among its siblings, `"├── "`
otherwise), then name with `"/"` appended exactly when the entry is a
directory. -/
def renderLine (e : EmitEvent) : String :=
  e.pre ++ (if e.isLast then "└── " else "├── ") ++
    (e.nm ++ (if e.isDir then "/" else ""))

/-- Event-level mirror of `walkList`: records the `EmitEvent` instead of
the rendered line, with identical control flow. -/
def walkEventsList (go : FS → String → List EmitEvent × Bool) :
    List FS → String → List EmitEvent × Bool
  | [], _ => ([], true)
  | p :: rest, pre =>
      let is_last := rest.isEmpty
      let ev : EmitEvent := ⟨pre, is_last, p.is_dir, p.name⟩
      if p.is_dir then
        let childPre := pre ++ (if is_last then "    " else "│   ")
        match go p childPre with
        | (sub, false) => (ev :: sub, false)
        | (sub, true) =>
            match walkEventsList go rest pre with
            | (tl, ok) => (ev :: (sub ++ tl), ok)
      else
        match walkEventsList go rest pre with
        | (tl, ok) => (ev :: tl, ok)

/-- Event-level mirror of `walk`, with identical traversal, filtering,
sorting and prefix bookkeeping. -/
def walkEvents (cfg : Config) :
    Nat → FS → List String → String → List EmitEvent × Bool
  | 0, _, _, _ => ([], true)
  | fuel + 1, node, rel, pre =>
      match node.iterdir with
      | none => ([], false)
      | some children =>
          let vis := children.filter (fun p =>
            !(_should_ignore cfg (rel ++ [p.name]) p) &&
            (cfg.include_files || !p.is_file))
          walkEventsList (fun p childPre =>
              walkEvents cfg fuel p (rel ++ [p.name]) childPre)
            (sortEntries vis) pre

/-- The last character of a string (`some '/'` exactly when the string ends
with a slash). -/
def lastChar? (s : String) : Option Char := s.data.getLast?

/-- Tag weight of one emitted Markdown line: an opening
`<details><summary>...</summary>` line counts +1, a closing `</details>`
line counts -1 (every line the Markdown renderer emits is one of the
two). -/
def mdDelta (l : String) : Int :=
  if "</summary>".data <:+ l.data then 1
  else if "</details>".data <:+ l.data then -1
  else 0

/-- Number of opening collapsible-block lines. -/
def mdOpens (ls : List String) : Nat :=
  ls.countP (fun l => decide ("</summary>".data <:+ l.data))

/-- Number of closing collapsible-block lines. -/
def mdCloses (ls : List String) : Nat :=
  ls.countP (fun l => decide ("</details>".data <:+ l.data))

/-- Run the tag weights over a line list starting from nesting depth `d`:
`some d'` is the final depth when no prefix ever drops below zero, `none`
when some closing tag has no matching opening tag before it. -/
def nestRun : Int → List String → Option Int
  | d, [] => some d
  | d, l :: ls =>
      let d' := d + mdDelta l
      if d' < 0 then none else nestRun d' ls

/-! ## Claim theorems: filter, CLI and configuration -/

/-- C1: the claim says an unlistable subdirectory must not abort the whole
render and sibling entries must still appear.  The code has no exception
handling around `iterdir`: at the concrete tree `root/` containing the
unreadable directory `locked` and the sibling file `z.txt`, the
`PermissionError` escapes, the render stops right after the `locked/` line,
the sibling `z.txt` never appears, and the Markdown renderer is cut off the
same way (its closing tags never printed). -/
theorem unreadable_subdir_aborts_render :
    print_tree (FS.dir "root" [FS.unreadableDir "locked", FS.file "z.txt"]) 2
      defaultOverrides = (["root/", "├── locked/"], false) ∧
    "└── z.txt" ∉ (print_tree
      (FS.dir "root" [FS.unreadableDir "locked", FS.file "z.txt"]) 2
      defaultOverrides).1 ∧
    print_tree_md (FS.dir "root" [FS.unreadableDir "locked", FS.file "z.txt"])
      2 defaultOverrides
      = (["<details><summary>root/</summary>",
          "    <details><summary>├── locked/</summary>"], false) := by
  decide

/-- C2: the claim says the walker never recurses into a symbolic link.
`p.is_dir()` follows symlinks, so a symlink `link` to a directory passes
the `if p.is_dir()` test and `walk` recurses through it: its target's
child `inner.txt` is listed in the output. -/
theorem walker_recurses_into_symlink :
    FS.is_symlink (FS.symlinkDir "link" [FS.file "inner.txt"]) = true ∧
    print_tree (FS.dir "root" [FS.symlinkDir "link" [FS.file "inner.txt"]]) 2
      defaultOverrides
      = (["root/", "└── link/", "    └── inner.txt"], true) := by
  decide

/-- C3: the claim says normalization removes only a leading `"./"` and
preserves a leading dot that is part of the first component's name.
`lstrip("./")` strips every leading `.` and `/` character, so the hidden
directory `.github` loses its dot: `_norm_rel` maps the relative path
`.github/ci.yml` to `"github/ci.yml"`, not to `".github/ci.yml"`. -/
theorem norm_rel_strips_hidden_dot :
    _norm_rel [".github", "ci.yml"] = "github/ci.yml" ∧
    _norm_rel [".github", "ci.yml"] ≠ ".github/ci.yml" := by
  decide

/-- C5: the per-level sort.  `entryLe` is the lexicographic order on the
key `(is_file, name.lower())`, i.e. directories (key `false`) before files
(key `true`) and case-insensitive name within a group.  The sorted sibling
list is a permutation of the input, is sorted for `entryLe`, never places
a file before a directory, and the sort is stable and deterministic: it is
a function of the input list and leaves an already-ordered list (ties
included) untouched. -/
theorem sibling_sort_order (l : List FS) :
    (sortEntries l).Perm l ∧
    List.Sorted entryLe (sortEntries l) ∧
    (∀ p q : FS, entryLe p q → p.is_file = true → q.is_file = true) ∧
    (List.Sorted entryLe l → sortEntries l = l) := by
  refine ⟨List.perm_insertionSort entryLe l,
    List.sorted_insertionSort entryLe l, ?_, fun h => h.insertionSort_eq⟩
  intro p q h hp
  rcases h with ⟨h1, h2⟩ | ⟨h1, h2⟩
  · rw [sortKey] at h1; simp [hp] at h1
  · rw [sortKey, sortKey] at h1; simp [hp] at h1; simp [← h1, hp]

/-- Witness for `sibling_sort_order` at the spec's own scenario tree. -/
theorem sibling_sort_order_witness :
    sortEntries [FS.dir "A" [], FS.file "a.txt", FS.file "b.txt"]
      = [FS.dir "A" [], FS.file "a.txt", FS.file "b.txt"] :=
  (sibling_sort_order [FS.dir "A" [], FS.file "a.txt", FS.file "b.txt"]).2.2.2
    (by decide)

/-- C7: a `DEPTH` argument that `int()` cannot parse raises `ValueError`
before anything is printed; the uncaught exception terminates the
interpreter with exit status 1 and no partial tree output. -/
theorem bad_depth_usage_error (fs : FS) (argv : List String)
    (hlen : (pyArgv1 argv).length > 1)
    (hbad : pyInt? ((pyArgv1 argv).getD 1 "") = none) :
    pyMain fs argv = ⟨[], 1, pyArgv1 argv⟩ := by
  unfold pyMain
  rw [if_pos hlen, hbad]

/-- Witness for `bad_depth_usage_error`: `pytree_printer.py . two`. -/
theorem bad_depth_usage_error_witness :
    pyMain (FS.dir "r" []) [".", "two"] = ⟨[], 1, [".", "two"]⟩ :=
  bad_depth_usage_error (FS.dir "r" []) [".", "two"] (by decide) (by decide)

/-- C8: configuration merging, shared by `print_tree` and `print_tree_md`
(both call `buildConfig` on their keyword arguments): a supplied
`ignore_names` replaces the default set entirely, `ignore_globs` is
appended after the default glob list, and omitted overrides (`none` /
empty) leave the defaults in force. -/
theorem override_merge_semantics (ns gs : List String)
    (ps : List (List String)) (inc : Bool) (n? : Option (List String)) :
    (buildConfig ⟨some ns, gs, ps, inc⟩).ignore_names = ns ∧
    (buildConfig ⟨none, gs, ps, inc⟩).ignore_names = DEFAULT_IGNORE_NAMES ∧
    (buildConfig ⟨n?, gs, ps, inc⟩).ignore_globs
      = DEFAULT_IGNORE_GLOBS ++ gs ∧
    (buildConfig ⟨n?, [], ps, inc⟩).ignore_globs = DEFAULT_IGNORE_GLOBS ∧
    (buildConfig ⟨n?, gs, ps, inc⟩).ignore_paths = ps ∧
    (buildConfig ⟨n?, gs, ps, inc⟩).include_files = inc := by
  refine ⟨rfl, rfl, rfl, ?_, rfl, rfl⟩
  simp [buildConfig]

/-- The `argvAfter` component of `pyMain` is always the list state produced
by the `--md` removal step, on every control path. -/
theorem pyMain_argvAfter (fs : FS) (argv : List String) :
    (pyMain fs argv).argvAfter = pyArgv1 argv := by
  unfold pyMain
  split
  · rfl
  · split
    · rfl

/-- C10: calling `main` with an explicit argv list containing `"--md"`
removes the first occurrence from the caller's list in place (here: the
list state after the call), and leaves the list unchanged when `"--md"` is
absent. -/
theorem argv_md_removed_in_place (fs : FS) (pre post : List String)
    (hpre : "--md" ∉ pre) :
    (pyMain fs (pre ++ "--md" :: post)).argvAfter = pre ++ post ∧
    (∀ argv : List String, "--md" ∉ argv →
      (pyMain fs argv).argvAfter = argv) := by
  constructor
  · rw [pyMain_argvAfter, pyArgv1, if_pos (by simp),
      List.erase_append_right _ hpre, List.erase_cons_head]
  · intro argv h
    rw [pyMain_argvAfter, pyArgv1, if_neg h]

/-- Witness for `argv_md_removed_in_place`: argv `["sub", "--md", "3"]`
loses exactly the `"--md"` element. -/
theorem argv_md_removed_in_place_witness :
    (pyMain (FS.dir "r" []) ["sub", "--md", "3"]).argvAfter = ["sub", "3"] :=
  (argv_md_removed_in_place (FS.dir "r" []) ["sub"] ["3"] (by decide)).1

/-! ## Depth-bound semantics (claim C4) -/


theorem readableList_iff (l : List FS) :
    readableList l = true ↔ ∀ p ∈ l, FS.readable p = true := by
  induction l with
  | nil => simp [readableList]
  | cons c cs ih => simp [readableList, ih]

theorem mem_sortEntries {p : FS} {l : List FS} :
    p ∈ sortEntries l ↔ p ∈ l :=
  (List.perm_insertionSort entryLe l).mem_iff

theorem walkList_count (go : FS → String → List String × Bool)
    (cnt : FS → Nat) :
    ∀ (l : List FS),
      (∀ p ∈ l, p.is_dir = true → ∀ cp,
        (go p cp).2 = true ∧ (go p cp).1.length = cnt p) →
      ∀ pre, (walkList go l pre).2 = true ∧
        (walkList go l pre).1.length
          = l.length + (l.map (fun p => if p.is_dir then cnt p else 0)).sum := by
  intro l
  induction l with
  | nil => intro _ pre; exact ⟨rfl, rfl⟩
  | cons p rest ih =>
    intro hgo pre
    have hrest := ih (fun q hq hdir cp => hgo q (by simp [hq]) hdir cp) pre
    rcases hwl : walkList go rest pre with ⟨tl, ok2⟩
    rw [hwl] at hrest
    obtain ⟨hrok, hrlen⟩ := hrest
    simp only at hrok hrlen
    by_cases hd : p.is_dir = true
    · have hgop := hgo p (by simp) hd (pre ++ (if rest.isEmpty then "    " else "│   "))
      rcases hgo' : go p (pre ++ (if rest.isEmpty then "    " else "│   ")) with ⟨sub, ok⟩
      rw [hgo'] at hgop
      obtain ⟨hok, hlen⟩ := hgop
      simp only at hok hlen
      subst hok
      simp only [walkList, hd, if_true, hgo', hwl]
      refine ⟨hrok, ?_⟩
      simp only [List.length_cons, List.length_append, List.map_cons,
        List.sum_cons, hd, if_true, hlen]
      omega
    · simp only [Bool.not_eq_true] at hd
      simp only [walkList, hd, Bool.false_eq_true, if_false, hwl]
      refine ⟨hrok, ?_⟩
      simp only [List.length_cons, List.map_cons, List.sum_cons, hd,
        Bool.false_eq_true, if_false]
      omega

theorem walk_count (cfg : Config) :
    ∀ (fuel : Nat) (node : FS) (rel : List String) (pre : String),
      node.is_dir = true → node.readable = true →
      (walk cfg fuel node rel pre).2 = true ∧
      (walk cfg fuel node rel pre).1.length = countUpTo cfg fuel node rel := by
  intro fuel
  induction fuel with
  | zero => intro node rel pre _ _; exact ⟨rfl, rfl⟩
  | succ f ih =>
    intro node rel pre hdir hread
    cases node with
    | file n => simp [FS.is_dir] at hdir
    | unreadableDir n => simp [FS.readable] at hread
    | dir n cs =>
      simp only [FS.readable] at hread
      have hmem : ∀ p ∈ sortEntries (cs.filter fun p =>
          !(_should_ignore cfg (rel ++ [p.name]) p) &&
          (cfg.include_files || !p.is_file)), FS.readable p = true := by
        intro p hp
        exact (readableList_iff cs).mp hread p
          (List.mem_filter.mp (mem_sortEntries.mp hp)).1
      have h := walkList_count
        (fun p cp => walk cfg f p (rel ++ [p.name]) cp)
        (fun p => countUpTo cfg f p (rel ++ [p.name]))
        (sortEntries (cs.filter fun p =>
          !(_should_ignore cfg (rel ++ [p.name]) p) &&
          (cfg.include_files || !p.is_file)))
        (fun p hp hdirp cp => ih p (rel ++ [p.name]) cp hdirp (hmem p hp)) pre
      have hperm : List.Perm (sortEntries (cs.filter fun p =>
          !(_should_ignore cfg (rel ++ [p.name]) p) &&
          (cfg.include_files || !p.is_file))) (cs.filter fun p =>
          !(_should_ignore cfg (rel ++ [p.name]) p) &&
          (cfg.include_files || !p.is_file)) :=
        List.perm_insertionSort entryLe _
      simp only [walk, FS.iterdir]
      refine ⟨h.1, ?_⟩
      rw [h.2]
      simp only [countUpTo, FS.iterdir]
      rw [hperm.length_eq, (hperm.map _).sum_eq]
    | symlinkDir n cs =>
      simp only [FS.readable] at hread
      have hmem : ∀ p ∈ sortEntries (cs.filter fun p =>
          !(_should_ignore cfg (rel ++ [p.name]) p) &&
          (cfg.include_files || !p.is_file)), FS.readable p = true := by
        intro p hp
        exact (readableList_iff cs).mp hread p
          (List.mem_filter.mp (mem_sortEntries.mp hp)).1
      have h := walkList_count
        (fun p cp => walk cfg f p (rel ++ [p.name]) cp)
        (fun p => countUpTo cfg f p (rel ++ [p.name]))
        (sortEntries (cs.filter fun p =>
          !(_should_ignore cfg (rel ++ [p.name]) p) &&
          (cfg.include_files || !p.is_file)))
        (fun p hp hdirp cp => ih p (rel ++ [p.name]) cp hdirp (hmem p hp)) pre
      have hperm : List.Perm (sortEntries (cs.filter fun p =>
          !(_should_ignore cfg (rel ++ [p.name]) p) &&
          (cfg.include_files || !p.is_file))) (cs.filter fun p =>
          !(_should_ignore cfg (rel ++ [p.name]) p) &&
          (cfg.include_files || !p.is_file)) :=
        List.perm_insertionSort entryLe _
      simp only [walk, FS.iterdir]
      refine ⟨h.1, ?_⟩
      rw [h.2]
      simp only [countUpTo, FS.iterdir]
      rw [hperm.length_eq, (hperm.map _).sum_eq]

/-- C4: with `maxDepth = 0` the output is exactly the root header line; in
general, for a readable directory tree the render completes and emits one
line per visible entry at depths `1 .. maxDepth` (`countUpTo` counts
exactly the visible entries whose depth `d` satisfies `1 <= d <= maxDepth`)
plus the root header, so an entry is emitted iff its depth is in that
range. -/
theorem depth_bound_semantics (o : Overrides) (maxD : Int) (t : FS)
    (hdir : t.is_dir = true) (hread : t.readable = true) :
    (print_tree t maxD o).2 = true ∧
    (print_tree t maxD o).1.length
      = 1 + countUpTo (buildConfig o) maxD.toNat t [] ∧
    (print_tree t 0 o).1 = [t.name ++ "/"] := by
  have h := walk_count (buildConfig o) maxD.toNat t [] "" hdir hread
  rcases hw : walk (buildConfig o) maxD.toNat t [] "" with ⟨lines, ok⟩
  rw [hw] at h
  obtain ⟨hok, hlen⟩ := h
  simp only at hok hlen
  subst hok
  refine ⟨?_, ?_, rfl⟩
  · simp [print_tree, hw]
  · simp [print_tree, hw, hlen]; omega

/-- Witness for `depth_bound_semantics` on a two-level tree at depth 2. -/
theorem depth_bound_semantics_witness :
    (print_tree (FS.dir "root" [FS.dir "A" [FS.file "c.txt"], FS.file "a.txt"])
      2 defaultOverrides).1.length
      = 1 + countUpTo (buildConfig defaultOverrides) ((2 : Int).toNat)
          (FS.dir "root" [FS.dir "A" [FS.file "c.txt"], FS.file "a.txt"]) [] :=
  (depth_bound_semantics defaultOverrides 2
    (FS.dir "root" [FS.dir "A" [FS.file "c.txt"], FS.file "a.txt"])
    (by decide) (by decide)).2.1

/-! ## Plain-text line format (claim C6) -/

theorem namesGoodList_iff (l : List FS) :
    namesGoodList l = true ↔ ∀ p ∈ l, FS.namesGood p = true := by
  induction l with
  | nil => simp [namesGoodList]
  | cons c cs ih => simp [namesGoodList, ih]

theorem namesGood_self (p : FS) (h : FS.namesGood p = true) :
    goodName p.name = true := by
  cases p with
  | file n => exact h
  | unreadableDir n => exact h
  | dir n cs =>
      simp only [FS.namesGood, Bool.and_eq_true] at h
      exact h.1
  | symlinkDir n cs =>
      simp only [FS.namesGood, Bool.and_eq_true] at h
      exact h.1

theorem getLast?_eq_some_mem {α : Type} :
    ∀ (l : List α) (a : α), l.getLast? = some a → a ∈ l := by
  intro l
  induction l with
  | nil => intro a h; simp [List.getLast?] at h
  | cons x xs ih =>
    intro a h
    cases xs with
    | nil =>
        simp [List.getLast?] at h
        simp [h]
    | cons y ys =>
        rw [List.getLast?_cons_cons] at h
        exact List.mem_cons_of_mem _ (ih a h)

theorem data_ne_nil (n : String) (h : ¬(n = "")) : n.data ≠ [] := by
  intro hd
  exact h (String.ext hd)

theorem renderLine_lastChar (e : EmitEvent) (h : goodName e.nm = true) :
    (lastChar? (renderLine e) = some '/') ↔ e.isDir = true := by
  obtain ⟨hne, hns⟩ : ¬(e.nm = "") ∧ e.nm.data.contains '/' = false := by
    simpa [goodName] using h
  rcases hd : e.isDir
  · simp only [renderLine, lastChar?, hd, if_neg Bool.false_ne_true]
    rw [String.append_empty, String.data_append]
    rw [List.getLast?_append_of_ne_nil _ (data_ne_nil _ hne)]
    simp only [iff_false, Bool.false_eq_true]
    intro hc
    have hmem := getLast?_eq_some_mem _ _ hc
    simp at hns
    exact hns hmem
  · simp only [renderLine, lastChar?, hd, if_true, iff_true]
    simp only [String.data_append]
    rw [List.getLast?_append_of_ne_nil _
      (by simp : (e.nm.data ++ ("/" : String).data : List Char) ≠ [])]
    rw [List.getLast?_append_of_ne_nil _
      (by decide : (("/" : String).data : List Char) ≠ [])]
    rfl

theorem walkList_eq_events (go : FS → String → List String × Bool)
    (goE : FS → String → List EmitEvent × Bool)
    (hgo : ∀ p cp, go p cp = ((goE p cp).1.map renderLine, (goE p cp).2)) :
    ∀ l pre, walkList go l pre
      = ((walkEventsList goE l pre).1.map renderLine,
         (walkEventsList goE l pre).2) := by
  intro l
  induction l with
  | nil => intro pre; rfl
  | cons p rest ih =>
    intro pre
    rcases hE : goE p (pre ++ (if rest.isEmpty then "    " else "│   "))
      with ⟨sub, ok⟩
    rcases hrest : walkEventsList goE rest pre with ⟨tl, ok2⟩
    have hgoP := hgo p (pre ++ (if rest.isEmpty then "    " else "│   "))
    rw [hE] at hgoP
    by_cases hd : p.is_dir = true
    · cases ok with
      | false =>
          simp only [walkList, walkEventsList, hd, if_true, hgoP, hE]
          simp [renderLine, hd]
      | true =>
          simp only [walkList, walkEventsList, hd, if_true, hgoP, hE, hrest,
            ih, List.map_append]
          simp [renderLine, hd]
    · simp only [Bool.not_eq_true] at hd
      simp only [walkList, walkEventsList, hd, Bool.false_eq_true, if_false,
        ih, hrest]
      simp [renderLine, hd]

theorem walk_eq_events (cfg : Config) :
    ∀ (fuel : Nat) (node : FS) (rel : List String) (pre : String),
      walk cfg fuel node rel pre
        = ((walkEvents cfg fuel node rel pre).1.map renderLine,
           (walkEvents cfg fuel node rel pre).2) := by
  intro fuel
  induction fuel with
  | zero => intro node rel pre; rfl
  | succ f ih =>
    intro node rel pre
    cases node with
    | file n => rfl
    | unreadableDir n => rfl
    | dir n cs =>
        simp only [walk, walkEvents, FS.iterdir]
        exact walkList_eq_events _ _ (fun p cp => ih p (rel ++ [p.name]) cp) _ pre
    | symlinkDir n cs =>
        simp only [walk, walkEvents, FS.iterdir]
        exact walkList_eq_events _ _ (fun p cp => ih p (rel ++ [p.name]) cp) _ pre

theorem walkEventsList_names (goE : FS → String → List EmitEvent × Bool) :
    ∀ (l : List FS) (pre : String),
      (∀ p ∈ l, FS.namesGood p = true) →
      (∀ p ∈ l, ∀ cp, ∀ e ∈ (goE p cp).1, goodName e.nm = true) →
      ∀ e ∈ (walkEventsList goE l pre).1, goodName e.nm = true := by
  intro l
  induction l with
  | nil => intro pre _ _ e he; simp [walkEventsList] at he
  | cons p rest ih =>
    intro pre hl hgoE e he
    by_cases hd : p.is_dir = true
    · rcases hE : goE p (pre ++ (if rest.isEmpty then "    " else "│   "))
        with ⟨sub, ok⟩
      cases ok with
      | false =>
          simp only [walkEventsList, hd, if_true, hE, List.mem_cons] at he
          rcases he with rfl | hsub
          · exact namesGood_self p (hl p (by simp))
          · have : e ∈ (goE p (pre ++ (if rest.isEmpty then "    "
                else "│   "))).1 := by rw [hE]; exact hsub
            exact hgoE p (by simp) _ e this
      | true =>
          rcases hrest : walkEventsList goE rest pre with ⟨tl, ok2⟩
          simp only [walkEventsList, hd, if_true, hE, hrest, List.mem_cons,
            List.mem_append] at he
          rcases he with rfl | hsub | htl
          · exact namesGood_self p (hl p (by simp))
          · have : e ∈ (goE p (pre ++ (if rest.isEmpty then "    "
                else "│   "))).1 := by rw [hE]; exact hsub
            exact hgoE p (by simp) _ e this
          · have := ih pre (fun q hq => hl q (by simp [hq]))
              (fun q hq cp e' he' => hgoE q (by simp [hq]) cp e' he') e
            rw [hrest] at this
            exact this htl
    · simp only [Bool.not_eq_true] at hd
      rcases hrest : walkEventsList goE rest pre with ⟨tl, ok2⟩
      simp only [walkEventsList, hd, Bool.false_eq_true, if_false, hrest,
        List.mem_cons] at he
      rcases he with rfl | htl
      · exact namesGood_self p (hl p (by simp))
      · have := ih pre (fun q hq => hl q (by simp [hq]))
          (fun q hq cp e' he' => hgoE q (by simp [hq]) cp e' he') e
        rw [hrest] at this
        exact this htl

theorem walkEvents_names (cfg : Config) :
    ∀ (fuel : Nat) (node : FS) (rel : List String) (pre : String),
      FS.namesGood node = true →
      ∀ e ∈ (walkEvents cfg fuel node rel pre).1, goodName e.nm = true := by
  intro fuel
  induction fuel with
  | zero => intro node rel pre _ e he; simp [walkEvents] at he
  | succ f ih =>
    intro node rel pre hng e he
    cases node with
    | file n => simp [walkEvents, FS.iterdir] at he
    | unreadableDir n => simp [walkEvents, FS.iterdir] at he
    | dir n cs =>
        simp only [FS.namesGood, Bool.and_eq_true] at hng
        simp only [walkEvents, FS.iterdir] at he
        refine walkEventsList_names _ _ pre ?_ ?_ e he
        · intro p hp
          exact (namesGoodList_iff cs).mp hng.2 p
            (List.mem_filter.mp (mem_sortEntries.mp hp)).1
        · intro p hp cp e' he'
          exact ih p (rel ++ [p.name]) cp
            ((namesGoodList_iff cs).mp hng.2 p
              (List.mem_filter.mp (mem_sortEntries.mp hp)).1) e' he'
    | symlinkDir n cs =>
        simp only [FS.namesGood, Bool.and_eq_true] at hng
        simp only [walkEvents, FS.iterdir] at he
        refine walkEventsList_names _ _ pre ?_ ?_ e he
        · intro p hp
          exact (namesGoodList_iff cs).mp hng.2 p
            (List.mem_filter.mp (mem_sortEntries.mp hp)).1
        · intro p hp cp e' he'
          exact ih p (rel ++ [p.name]) cp
            ((namesGoodList_iff cs).mp hng.2 p
              (List.mem_filter.mp (mem_sortEntries.mp hp)).1) e' he'

/-- C6: the first plain-text line is the root name followed by `"/"`; every
walker line is `renderLine` of its traversal event - that is, prefix, then
`"└── "` exactly when the entry is last of its sorted sibling list and
`"├── "` otherwise, then the name with `"/"` appended exactly when the
entry is a directory (`walkEvents` keeps the source's bookkeeping: `isLast`
is the emptiness of the remaining sibling tail, and a child's prefix is its
parent's prefix extended with `"    "` when the parent was last and
`"│   "` otherwise); moreover, for well-formed POSIX names, an emitted
line ends in `'/'` exactly when its entry is a directory. -/
theorem plain_line_format (o : Overrides) (maxD : Int) (t : FS)
    (hnames : t.namesGood = true) :
    (print_tree t maxD o).1.head? = some (t.name ++ "/") ∧
    (∀ (fuel : Nat) (rel : List String) (pre : String),
      walk (buildConfig o) fuel t rel pre
        = ((walkEvents (buildConfig o) fuel t rel pre).1.map renderLine,
           (walkEvents (buildConfig o) fuel t rel pre).2)) ∧
    (∀ (fuel : Nat) (rel : List String) (pre : String),
      ∀ e ∈ (walkEvents (buildConfig o) fuel t rel pre).1,
        ((lastChar? (renderLine e) = some '/') ↔ e.isDir = true)) := by
  refine ⟨?_, fun fuel rel pre => walk_eq_events _ fuel t rel pre, ?_⟩
  · rcases hw : walk (buildConfig o) maxD.toNat t [] "" with ⟨lines, ok⟩
    simp [print_tree, hw]
  · intro fuel rel pre e he
    exact renderLine_lastChar e
      (walkEvents_names (buildConfig o) fuel t rel pre hnames e he)

/-- Witness for `plain_line_format` at a concrete tree. -/
theorem plain_line_format_witness :
    (print_tree (FS.dir "root" [FS.dir "A" [], FS.file "a.txt"]) 2
      defaultOverrides).1.head? = some "root/" :=
  (plain_line_format defaultOverrides 2
    (FS.dir "root" [FS.dir "A" [], FS.file "a.txt"]) (by decide)).1

/-! ## Markdown tag balance (claim C9) -/

theorem suffix_unique {l s₁ s₂ : List Char} (h₁ : s₁ <:+ l) (h₂ : s₂ <:+ l)
    (h : s₁.length = s₂.length) : s₁ = s₂ := by
  obtain ⟨a, ha⟩ := h₁
  obtain ⟨b, hb⟩ := h₂
  rw [← hb] at ha
  have hl : a.length = b.length := by
    have := congrArg List.length ha
    simp only [List.length_append] at this
    omega
  exact (List.append_inj ha hl).2

theorem mdDelta_open (a : String) : mdDelta (a ++ "</summary>") = 1 := by
  rw [mdDelta, if_pos]
  rw [String.data_append]
  exact List.suffix_append _ _

theorem mdDelta_close (a : String) : mdDelta (a ++ "</details>") = -1 := by
  have hdet : ("</details>" : String).data <:+ (a ++ "</details>").data := by
    rw [String.data_append]; exact List.suffix_append _ _
  have hns : ¬(("</summary>" : String).data <:+ (a ++ "</details>").data) := by
    intro hsuf
    exact absurd (suffix_unique hsuf hdet (by decide)) (by decide)
  rw [mdDelta, if_neg hns, if_pos hdet]

theorem nestRun_append : ∀ (a b : List String) (d : Int),
    nestRun d (a ++ b) = (nestRun d a).bind (fun d' => nestRun d' b) := by
  intro a
  induction a with
  | nil => intro b d; rfl
  | cons l ls ih =>
    intro b d
    simp only [List.cons_append, nestRun]
    by_cases h : d + mdDelta l < 0
    · simp [h]
    · simp [h, ih]

theorem nestRun_counts : ∀ (ls : List String) (d d' : Int),
    nestRun d ls = some d' →
    d' = d + (mdOpens ls : Int) - (mdCloses ls : Int) := by
  intro ls
  induction ls with
  | nil =>
    intro d d' h
    simp only [nestRun, Option.some.injEq] at h
    simp [mdOpens, mdCloses, ← h]
  | cons l ls ih =>
    intro d d' h
    simp only [nestRun] at h
    by_cases hneg : d + mdDelta l < 0
    · simp [hneg] at h
    · simp only [hneg, if_false] at h
      have hrec := ih _ _ h
      by_cases hs : ("</summary>" : String).data <:+ l.data
      · have hd : ¬(("</details>" : String).data <:+ l.data) := fun hdet =>
          absurd (suffix_unique hdet hs (by decide)) (by decide)
        have hdl : mdDelta l = 1 := by rw [mdDelta, if_pos hs]
        rw [hdl] at hrec
        simp only [mdOpens, mdCloses, List.countP_cons] at hrec ⊢
        simp [hs, hd] at hrec ⊢
        omega
      · by_cases hd : ("</details>" : String).data <:+ l.data
        · have hdl : mdDelta l = -1 := by rw [mdDelta, if_neg hs, if_pos hd]
          rw [hdl] at hrec
          simp only [mdOpens, mdCloses, List.countP_cons] at hrec ⊢
          simp [hs, hd] at hrec ⊢
          omega
        · have hdl : mdDelta l = 0 := by rw [mdDelta, if_neg hs, if_neg hd]
          rw [hdl] at hrec
          simp only [mdOpens, mdCloses, List.countP_cons] at hrec ⊢
          simp [hs, hd] at hrec ⊢
          omega

theorem walkMdList_balance (go : FS → String → List String × Bool) :
    ∀ (l : List FS) (pre : String) (depth : Nat),
      (∀ p ∈ l, p.is_dir = true → ∀ cp,
        (go p cp).2 = true ∧
        ∀ d : Int, 0 ≤ d → nestRun d (go p cp).1 = some d) →
      (walkMdList go l pre depth).2 = true ∧
      ∀ d : Int, 0 ≤ d →
        nestRun d (walkMdList go l pre depth).1 = some d := by
  intro l
  induction l with
  | nil => intro pre depth _; exact ⟨rfl, fun d _ => rfl⟩
  | cons p rest ih =>
    intro pre depth hgo
    have hrest := ih pre depth (fun q hq => hgo q (by simp [hq]))
    rcases hrest' : walkMdList go rest pre depth with ⟨tl, ok2⟩
    rw [hrest'] at hrest
    obtain ⟨hok2, htl⟩ := hrest
    simp only at hok2 htl
    subst hok2
    by_cases hd : p.is_dir = true
    · have hgop := hgo p (by simp) hd
        (pre ++ (if rest.isEmpty then "    " else "│   "))
      rcases hgo' : go p (pre ++ (if rest.isEmpty then "    " else "│   "))
        with ⟨sub, ok⟩
      rw [hgo'] at hgop
      obtain ⟨hok, hsub⟩ := hgop
      simp only at hok hsub
      subst hok
      simp only [walkMdList, hd, if_true, hgo', hrest']
      refine ⟨trivial, ?_⟩
      intro d hd0
      simp only [nestRun, mdDelta_open]
      rw [if_neg (by omega)]
      rw [nestRun_append, hsub (d + 1) (by omega)]
      simp only [Option.some_bind]
      simp only [nestRun, mdDelta_close]
      rw [if_neg (by omega)]
      have : d + 1 + -1 = d := by omega
      rw [this]
      exact htl d hd0
    · simp only [Bool.not_eq_true] at hd
      simp only [walkMdList, hd, Bool.false_eq_true, if_false, hrest']
      refine ⟨trivial, ?_⟩
      intro d hd0
      simp only [List.nil_append, nestRun, mdDelta_open]
      rw [if_neg (by omega)]
      simp only [nestRun, mdDelta_close]
      rw [if_neg (by omega)]
      have : d + 1 + -1 = d := by omega
      rw [this]
      exact htl d hd0

theorem walkMd_balance (cfg : Config) :
    ∀ (fuel : Nat) (node : FS) (rel : List String) (pre : String)
      (depth : Nat),
      node.is_dir = true → node.readable = true →
      (walkMd cfg fuel node rel pre depth).2 = true ∧
      ∀ d : Int, 0 ≤ d →
        nestRun d (walkMd cfg fuel node rel pre depth).1 = some d := by
  intro fuel
  induction fuel with
  | zero => intro node rel pre depth _ _; exact ⟨rfl, fun d _ => rfl⟩
  | succ f ih =>
    intro node rel pre depth hdir hread
    cases node with
    | file n => simp [FS.is_dir] at hdir
    | unreadableDir n => simp [FS.readable] at hread
    | dir n cs =>
      simp only [FS.readable] at hread
      simp only [walkMd, FS.iterdir]
      refine walkMdList_balance _ _ pre depth ?_
      intro p hp hdirp cp
      exact ih p (rel ++ [p.name]) cp (depth + 1) hdirp
        ((readableList_iff cs).mp hread p
          (List.mem_filter.mp (mem_sortEntries.mp hp)).1)
    | symlinkDir n cs =>
      simp only [FS.readable] at hread
      simp only [walkMd, FS.iterdir]
      refine walkMdList_balance _ _ pre depth ?_
      intro p hp hdirp cp
      exact ih p (rel ++ [p.name]) cp (depth + 1) hdirp
        ((readableList_iff cs).mp hread p
          (List.mem_filter.mp (mem_sortEntries.mp hp)).1)

/-- C9: for every readable directory tree and every `maxDepth`, the
Markdown render completes; its output is the root opening line, then the
walker's lines, then one root `</details>` line - the root's single
outermost matched pair; the walker's block and the whole output are
properly nested (`nestRun` returns to its starting level without ever
dropping below it); and the number of opening collapsible-block lines
equals the number of closing ones. -/
theorem md_tags_balanced (o : Overrides) (maxD : Int) (t : FS)
    (hdir : t.is_dir = true) (hread : t.readable = true) :
    (print_tree_md t maxD o).2 = true ∧
    (print_tree_md t maxD o).1
      = ("<details><summary>" ++ t.name ++ "/</summary>")
        :: ((walkMd (buildConfig o) maxD.toNat t [] "" 0).1
            ++ ["</details>"]) ∧
    nestRun 0 (walkMd (buildConfig o) maxD.toNat t [] "" 0).1 = some 0 ∧
    nestRun 0 (print_tree_md t maxD o).1 = some 0 ∧
    mdOpens (print_tree_md t maxD o).1
      = mdCloses (print_tree_md t maxD o).1 := by
  have h := walkMd_balance (buildConfig o) maxD.toNat t [] "" 0 hdir hread
  rcases hw : walkMd (buildConfig o) maxD.toNat t [] "" 0 with ⟨lines, ok⟩
  rw [hw] at h
  obtain ⟨hok, hbal⟩ := h
  simp only at hok hbal
  subst hok
  have h2 : print_tree_md t maxD o
      = (("<details><summary>" ++ t.name ++ "/</summary>")
         :: (lines ++ ["</details>"]), true) := by
    simp [print_tree_md, hw]
  have hh : mdDelta ("<details><summary>" ++ t.name ++ "/</summary>") = 1 := by
    rw [mdDelta, if_pos]
    rw [String.data_append]
    exact List.IsSuffix.trans (by decide) (List.suffix_append _ _)
  have hnest : nestRun 0 (("<details><summary>" ++ t.name ++ "/</summary>")
      :: (lines ++ ["</details>"])) = some 0 := by
    simp only [nestRun, hh]
    rw [if_neg (by omega)]
    rw [nestRun_append, hbal (0 + 1) (by omega)]
    simp only [Option.some_bind]
    simp only [nestRun]
    have hc : mdDelta "</details>" = -1 := by
      have : ("</details>" : String) = "" ++ "</details>" := by decide
      rw [this, mdDelta_close]
    rw [hc, if_neg (by omega)]
    norm_num
  refine ⟨by rw [h2], by rw [h2], hbal 0 le_rfl,
    by rw [h2]; exact hnest, ?_⟩
  rw [h2]
  dsimp only
  have := nestRun_counts _ _ _ hnest
  omega

/-- Witness for `md_tags_balanced` at a concrete tree. -/
theorem md_tags_balanced_witness :
    mdOpens (print_tree_md (FS.dir "root" [FS.dir "A" [], FS.file "b.txt"]) 2
      defaultOverrides).1
      = mdCloses (print_tree_md (FS.dir "root" [FS.dir "A" [], FS.file "b.txt"])
          2 defaultOverrides).1 :=
  (md_tags_balanced defaultOverrides 2
    (FS.dir "root" [FS.dir "A" [], FS.file "b.txt"])
    (by decide) (by decide)).2.2.2.2
